import Mathlib

/-!
Verification of the webwalk crawler (webwalk.py).

URLs, HTML attribute values and file contents are modelled as `List Char`.
Python's `os.path.abspath` is only ever applied to absolute POSIX paths by
`clean_url`, so it coincides with `posixpath.normpath`, which is embedded
here faithfully (component scan with `.`/`..` resolution and the special
two-leading-slash rule).  Compiled regular expressions are modelled as
abstract predicates `List Char → Bool` (the `re` module is an external
collaborator; `pattern.search(url)` is truthy exactly when the predicate
holds).  The network is modelled as a partial map from URL to page, and the
local file system as an association list from path to content.
-/

/-- Python `s.split(sep)` for a one-character separator: split at every
occurrence, keeping empty pieces. -/
def splitOnC (c : Char) : List Char → List (List Char)
  | [] => [[]]
  | x :: xs =>
    let r := splitOnC c xs
    if x = c then [] :: r
    else (x :: r.headD []) :: r.tail

/-- Python `sep.join(parts)` for a one-character separator. -/
def joinS (sep : Char) : List (List Char) → List Char
  | [] => []
  | [x] => x
  | x :: y :: rest => x ++ sep :: joinS sep (y :: rest)

/-- Python `url.split(sep, 1)[0]` for `sep = '?'`: everything before the
first `'?'` (the whole string when there is none). -/
def takeBeforeQ (u : List Char) : List Char := u.takeWhile (fun c => c ≠ '?')

/-- Does the string start with the scheme marker `"://"`? -/
def isMarker (l : List Char) : Bool :=
  decide (l.take 3 = [':', '/', '/'])

/-- Python `s.find("://")`: index of the first occurrence of the marker, or
`none` when absent (Python returns `-1`). -/
def findSS : List Char → Option Nat
  | [] => none
  | c :: rest => if isMarker (c :: rest) then some 0 else (findSS rest).map (· + 1)

/-- The `initial_slashes` computation of `posixpath.normpath`: 0 for a
relative path, 2 for a path starting with exactly two slashes (POSIX
reserves `//`), 1 otherwise. -/
def initialSlashes (p : List Char) : Nat :=
  if p.take 1 = ['/'] then
    if p.take 2 = ['/', '/'] ∧ ¬ p.take 3 = ['/', '/', '/'] then 2 else 1
  else 0

/-- One step of the component loop of `posixpath.normpath`.  The
accumulator is kept reversed (its head is Python's `new_comps[-1]`). -/
def normStep (initSl : Nat) (acc : List (List Char)) (comp : List Char) : List (List Char) :=
  if comp = [] ∨ comp = ['.'] then acc
  else if comp ≠ ['.', '.'] ∨ (initSl = 0 ∧ acc = []) ∨ acc.head? = some ['.', '.'] then
    comp :: acc
  else acc.tail

/-- `posixpath.normpath`: collapse duplicate separators and resolve `.` and
`..` components, clamping `..` at the root for absolute paths. -/
def normpath (p : List Char) : List Char :=
  if p = [] then ['.']
  else
    let initSl := initialSlashes p
    let comps := ((splitOnC '/' p).foldl (normStep initSl) []).reverse
    let out := List.replicate initSl '/' ++ joinS '/' comps
    if out = [] then ['.'] else out

/-- `os.path.abspath` as used by `clean_url`: every call site passes a path
that already starts with `'/'`, so the cwd join inside `os.path.abspath` is
dead code and the function coincides with `posixpath.normpath`. -/
def abspath (p : List Char) : List Char := normpath p

/-- `clean_url` from webwalk.py: strip the query string, then normalize the
part after `"://"` (or the whole string) as a POSIX path. -/
def clean_url (url : List Char) : List Char :=
  let path := takeBeforeQ url
  match findSS path with
  | some pos => path.take (pos + 2) ++ abspath (path.drop (pos + 2))
  | none =>
    if path.head? = some '/' then abspath path
    else (abspath ('/' :: path)).tail

/-! ## Link extractor (MyHtmlParser) -/

/-- An HTML start tag as delivered by Python's `HTMLParser.handle_starttag`:
the tag name and the attribute list (attribute values may be `None`).  The
stdlib tokenizer is an external collaborator; a document is modelled as the
sequence of start-tag events it emits. -/
abbrev TagEvent := List Char × List (List Char × Option (List Char))

def hrefS : List Char := "href".data

def srcS : List Char := "src".data

def baseS : List Char := "base".data

def aS : List Char := "a".data

def linkS : List Char := "link".data

def scriptS : List Char := "script".data

def indexHtmlS : List Char := "index.html".data

/-- `MyHtmlParser.__get_attr`: value of the first attribute whose
lower-cased name equals `key` (`none` both when absent and when the
attribute has no value, exactly as in the Python code). -/
def get_attr (attrs : List (List Char × Option (List Char))) (key : List Char) :
    Option (List Char) :=
  match attrs with
  | [] => none
  | (k, v) :: rest => if k.map Char.toLower = key then v else get_attr rest key

/-- `MyHtmlParser.__path_join`: concatenate with exactly one `'/'` at the
junction. -/
def path_join (parta partb : List Char) : List Char :=
  if parta.getLast? = some '/' then
    if partb.head? = some '/' then parta ++ partb.tail else parta ++ partb
  else if partb.head? = some '/' then parta ++ partb
  else parta ++ '/' :: partb

/-- Python `s.find(c, start)`: index of the first occurrence of `c` at
position `≥ start`, or `none`. -/
def findCharFrom (l : List Char) (c : Char) (start : Nat) : Option Nat :=
  ((l.drop start).findIdx? (fun x => x = c)).map (fun i => start + i)

/-- `MyHtmlParser.__create_url`: resolve a raw reference against the page
URL `m_url` and the optional `<base>` URL `m_base`. -/
def create_url (m_url : List Char) (m_base : Option (List Char)) (in_path : List Char) :
    Option (List Char) :=
  let path := clean_url (takeBeforeQ in_path)
  if path = ['/'] then none
  else if path.head? = some '/' then
    match m_base with
    | some b => some (path_join b path)
    | none =>
      let pos :=
        match findSS m_url with
        | some p => findCharFrom m_url '/' (p + 3)
        | none => findCharFrom m_url '/' 0
      match pos with
      | none => none
      | some q => some (path_join (m_url.take q) path)
  else if findSS path = none then some (path_join m_url path)
  else some path

/-- The per-page scratch state of `MyHtmlParser` (`m_url`, `m_base`,
`m_list`). -/
structure PState where
  m_url : List Char
  m_base : Option (List Char)
  m_list : List (List Char)
  deriving DecidableEq

/-- `MyHtmlParser.handle_starttag`. -/
def handle_starttag (st : PState) (tag : List Char)
    (attrs : List (List Char × Option (List Char))) : PState :=
  let tagl := tag.map Char.toLower
  if tagl = baseS then
    match get_attr attrs hrefS with
    | some href => { st with m_base := some (clean_url href) }
    | none => st
  else if tagl = aS ∨ tagl = linkS then
    match get_attr attrs hrefS with
    | some href =>
      if href.head? = some '#' ∨ href.head? = some '?' then st
      else
        match create_url st.m_url st.m_base href with
        | some path =>
          if path ≠ st.m_url ∧ path ∉ st.m_list then { st with m_list := st.m_list ++ [path] }
          else st
        | none => st
    | none => st
  else if tagl = scriptS then
    match get_attr attrs srcS with
    | some src =>
      match create_url st.m_url st.m_base src with
      | some path =>
        if path ≠ st.m_url ∧ path ∉ st.m_list then { st with m_list := st.m_list ++ [path] }
        else st
      | none => st
    | none => st
  else st

/-- `MyHtmlParser.analyze`: clean the page URL, reset the scratch state and
feed every start-tag event of the document through `handle_starttag`. -/
def analyze (url : List Char) (html : List TagEvent) : PState :=
  html.foldl (fun st ev => handle_starttag st ev.1 ev.2)
    { m_url := clean_url url, m_base := none, m_list := [] }

/-! ## Traversal policy and crawl engine -/

/-- The compiled command-line options that the walk reads (`CrawlConfig`).
Compiled regex patterns are abstract predicates; `argparse` produces either
`none` or a non-empty pattern list for each of the three pattern options. -/
structure Opts where
  depth : Nat
  exclude : Option (List (List Char → Bool))
  include_ : Option (List (List Char → Bool))
  filter : Option (List (List Char → Bool))
  replicate : Option (List Char)
  copy : Option (List Char)
  URL : List Char

/-- `proceed` from webwalk.py: the traversal-policy decision. -/
def proceed (url : List Char) (opts : Opts) (dups : List (List Char)) (depth : Nat) : Bool :=
  if opts.depth > 0 ∧ depth > opts.depth then false
  else if url ∈ dups then false
  else if (match opts.exclude with
           | some pats => pats.any (fun p => p url)
           | none => false) then false
  else if (match opts.include_ with
           | some pats => pats.any (fun p => ¬ p url)
           | none => false) then false
  else true

/-- `display` from webwalk.py: the report filter (disjunctive, with a
virtual `index.html` appended to directory URLs). -/
def display (url : List Char) (opts : Opts) : Bool :=
  match opts.filter with
  | some pats =>
    let urlx := if url.getLast? = some '/' then url ++ indexHtmlS else url
    pats.any (fun p => p urlx)
  | none => true

/-- Python `s.rfind(c)`: index of the last occurrence, or `none`. -/
def rfindChar (l : List Char) (c : Char) : Option Nat :=
  match findCharFrom l.reverse c 0 with
  | some i => some (l.length - 1 - i)
  | none => none

/-- `os.path.join` restricted to two arguments (POSIX). -/
def osPathJoin (a b : List Char) : List Char :=
  if b.head? = some '/' then b
  else if a = [] ∨ a.getLast? = some '/' then a ++ b
  else a ++ '/' :: b

/-- `create_reppath`: hierarchical-replication output path. -/
def create_reppath (url : List Char) (opts : Opts) : Option (List Char) :=
  match opts.replicate with
  | some dir =>
    let pos := opts.URL.length
    let url := if url.getLast? = some '/' then url ++ indexHtmlS else url
    let reppath := url.drop pos
    let reppath := if reppath.head? = some '/' then reppath else '/' :: reppath
    some (clean_url (dir ++ reppath))
  | none => none

/-- `create_cppath`: flat-copy output path (copy dir + basename). -/
def create_cppath (url : List Char) (opts : Opts) : Option (List Char) :=
  match opts.copy with
  | some dir =>
    let url := if url.getLast? = some '/' then url ++ indexHtmlS else url
    let cut := match rfindChar url '/' with
               | some p => p + 1
               | none => 0
    some (osPathJoin dir (url.drop cut))
  | none => none

/-- The local file system: an association list from path to file content
(first match wins, new files are appended). -/
abbrev FileSys := List (List Char × List Char)

def fsLookup (fs : FileSys) (p : List Char) : Option (List Char) :=
  (fs.find? (fun e => e.1 = p)).map Prod.snd

/-- `copy_to_file`: write `data` to `outfile` only when no file exists at
that path (first-writer-wins); an existing file is left untouched. -/
def copy_to_file (fs : FileSys) (data : List Char) (outfile : List Char) : FileSys :=
  if (fsLookup fs outfile).isNone then fs ++ [(outfile, data)] else fs

/-- A fetched page: whether its declared content type is HTML, the start-tag
events of its body, and its raw content. -/
structure Page where
  isHtml : Bool
  events : List TagEvent
  content : List Char

/-- The site being crawled: what `openurl` returns for each URL (`none` is a
fetch failure: HTTP error, connection error or timeout). -/
abbrev Site := List Char → Option Page

/-- Observable outcome of a (fuel-bounded) walk: final file system, the
URLs fetched (in fetch order), the URLs reported, and whether the walk ran
to completion within the given fuel. -/
structure WalkResult where
  fs : FileSys
  fetched : List (List Char)
  reported : List (List Char)
  completed : Bool
  deriving DecidableEq

def combineW (acc r : WalkResult) : WalkResult :=
  ⟨r.fs, acc.fetched ++ r.fetched, acc.reported ++ r.reported, acc.completed && r.completed⟩

/-- The two mirror writes of `walk`'s display branch (`opts.replicate` then
`opts.copy`), each through `copy_to_file`. -/
def mirrorFS (url : List Char) (opts : Opts) (content : List Char) (fs : FileSys) : FileSys :=
  let fs1 := match create_reppath url opts with
             | some rp => copy_to_file fs content rp
             | none => fs
  match create_cppath url opts with
  | some cp => copy_to_file fs1 content cp
  | none => fs1

/-- `walk` from webwalk.py, indexed by fuel (the Python function is
recursive with no structural bound; `completed = false` means the fuel ran
out, and if that happens at every fuel the Python walk does not terminate).
Note that, exactly as in the source, nothing is ever added to `dups`. -/
def walkFuel (site : Site) : Nat → List Char → Opts → List (List Char) → Nat → Bool →
    Option (List Char) → FileSys → WalkResult
  | 0, _, _, _, _, _, _, fs => ⟨fs, [], [], false⟩
  | fuel + 1, url0, opts, dups, depth, recurse, _parent, fs =>
    let url := clean_url url0
    if proceed url opts dups depth = false then ⟨fs, [], [], true⟩
    else
      match site url with
      | none => ⟨fs, [url], [], true⟩
      | some page =>
        let disp := display url opts
        let fs1 := if disp then mirrorFS url opts page.content fs else fs
        let rep1 : List (List Char) := if disp then [url] else []
        if page.isHtml && recurse then
          ((analyze url page.events).m_list).foldl
            (fun acc newurl =>
              combineW acc
                (walkFuel site fuel newurl opts dups (depth + 1)
                  (url.isPrefixOf newurl) (some url) acc.fs))
            ⟨fs1, [url], rep1, true⟩
        else ⟨fs1, [url], rep1, true⟩

/-! ## Normal-form theory for `normpath` -/

/-- A path component that `normpath` leaves alone: nonempty, not `.`, not
`..`, and separator-free. -/
def PlainComp (x : List Char) : Prop :=
  x ≠ [] ∧ x ≠ ['.'] ∧ x ≠ ['.', '.'] ∧ '/' ∉ x

/-- The normal form that `normpath` produces for an absolute input:
`initSl` leading slashes followed by the plain components joined by single
slashes. -/
def NFparts (initSl : Nat) (comps : List (List Char)) : List Char :=
  List.replicate initSl '/' ++ joinS '/' comps

/-- No two adjacent separators anywhere in the string. -/
def noDS : List Char → Bool
  | [] => true
  | [_] => true
  | a :: b :: rest => if a = '/' ∧ b = '/' then false else noDS (b :: rest)

/-- The scheme marker `"://"` occurs at position `m`. -/
def markerAt (l : List Char) (m : Nat) : Prop :=
  l[m]? = some ':' ∧ l[m + 1]? = some '/' ∧ l[m + 2]? = some '/'

/-- The component list that `normpath` builds for `p`. -/
def normComps (p : List Char) : List (List Char) :=
  ((splitOnC '/' p).foldl (normStep (initialSlashes p)) []).reverse

/-- The raw resolution stream of the extractor: every successfully resolved
reference of the document, in document order, threading the evolving
`<base>` URL; duplicate and self-reference suppression is not applied
here. -/
def candidates (m_url : List Char) : Option (List Char) → List TagEvent → List (List Char)
  | _, [] => []
  | b, (tag, attrs) :: rest =>
    let tagl := tag.map Char.toLower
    if tagl = baseS then
      match get_attr attrs hrefS with
      | some href => candidates m_url (some (clean_url href)) rest
      | none => candidates m_url b rest
    else if tagl = aS ∨ tagl = linkS then
      match get_attr attrs hrefS with
      | some href =>
        if href.head? = some '#' ∨ href.head? = some '?' then candidates m_url b rest
        else
          match create_url m_url b href with
          | some path => path :: candidates m_url b rest
          | none => candidates m_url b rest
      | none => candidates m_url b rest
    else if tagl = scriptS then
      match get_attr attrs srcS with
      | some src =>
        match create_url m_url b src with
        | some path => path :: candidates m_url b rest
        | none => candidates m_url b rest
      | none => candidates m_url b rest
    else candidates m_url b rest

/-- First-occurrence deduplication with self-reference suppression: the
append rule of `handle_starttag` applied to a precomputed stream. -/
def dedupKeep (m_url : List Char) : List (List Char) → List (List Char) → List (List Char)
  | acc, [] => acc
  | acc, p :: ps =>
    if p ≠ m_url ∧ p ∉ acc then dedupKeep m_url (acc ++ [p]) ps
    else dedupKeep m_url acc ps

def dotS : List Char := ".".data

/-- Options corresponding to a plain `webwalk URL` invocation: no depth
limit, no patterns, no mirroring. -/
def defaultOpts : Opts :=
  { depth := 0, exclude := none, include_ := none, filter := none,
    replicate := none, copy := none, URL := [] }

def urlC2 : List Char := "http://a.com/b".data

def pageC2 : Page := ⟨true, [(aS, [(hrefS, some dotS)])], ['X']⟩

/-- A one-page cyclic site: the single page at `urlC2` links to `.`,
which resolves to `urlC2 ++ "/"`, which canonicalizes back to `urlC2`. -/
def siteC2 : Site := fun u => if u = urlC2 then some pageC2 else none

/-- Apply a list of first-writer-wins writes in order. -/
def applyWrites : FileSys → List (List Char × List Char) → FileSys
  | fs, [] => fs
  | fs, (p, d) :: w => applyWrites (copy_to_file fs d p) w

/-- The (at most two) mirror writes the display branch of `walk` performs. -/
def mirrorWrites (url : List Char) (opts : Opts) (content : List Char) :
    List (List Char × List Char) :=
  (match create_reppath url opts with
   | some rp => [(rp, content)]
   | none => []) ++
  (match create_cppath url opts with
   | some cp => [(cp, content)]
   | none => [])

/-- The write stream of a walk.  It does not read the file system: the
walk's control flow never consults the files already present. -/
def walkWrites (site : Site) : Nat → List Char → Opts → List (List Char) → Nat → Bool →
    List (List Char × List Char)
  | 0, _, _, _, _, _ => []
  | f + 1, url0, opts, dups, depth, recurse =>
    let url := clean_url url0
    if proceed url opts dups depth = false then []
    else
      match site url with
      | none => []
      | some page =>
        let w1 := if display url opts then mirrorWrites url opts page.content else []
        if page.isHtml && recurse then
          w1 ++ ((analyze url page.events).m_list).foldl
            (fun acc newurl =>
              acc ++ walkWrites site f newurl opts dups (depth + 1) (url.isPrefixOf newurl))
            []
        else w1

/-! ## Concrete test fixtures -/

def urlC1A : List Char := "http://a.com".data

def urlC1B : List Char := "http://a.com/b".data

def pageC1A : Page := ⟨true, [(aS, [(hrefS, some urlC1B)])], ['A']⟩

def pageC1B : Page := ⟨true, [(aS, [(hrefS, some urlC1A)])], ['B']⟩

/-- A two-page cyclic site: the page at `urlC1A` links to `urlC1B`, which
links back to `urlC1A`. -/
def siteC1 : Site := fun u =>
  if u = urlC1A then some pageC1A else if u = urlC1B then some pageC1B else none

def urlSlashy : List Char := "http://a.com//b///c".data

def urlSlashyClean : List Char := "http://a.com/b/c".data

def urlQ : List Char := "http://a.com/b?x=1".data

def urlQClean : List Char := "http://a.com/b".data

def urlDD : List Char := "http://a.com/../x".data

def urlDDClean : List Char := "http://x".data

def schemeHttp : List Char := "http".data

def hostPathQ : List Char := "a.com//b?z".data

def urlC6A : List Char := "http://a.com/p".data

def urlC6E : List Char := "http://other.com/p".data

def urlC6F : List Char := "http://other.com/p/f".data

/-- Root page links to an external URL; the external page links onward to a
third page. -/
def siteC6 : Site := fun u =>
  if u = urlC6A then some ⟨true, [(aS, [(hrefS, some urlC6E)])], ['A']⟩
  else if u = urlC6E then some ⟨true, [(aS, [(hrefS, some urlC6F)])], ['E']⟩
  else if u = urlC6F then some ⟨true, [], ['F']⟩
  else none

def urlC7P : List Char := "http://p.com/x".data

def baseC7 : List Char := "http://a.com/base/".data

def refC7 : List Char := "/a//b".data

def resC7 : List Char := "http://a.com/base/a/b".data

def joinRawC7 : List Char := "http://a.com/base/a//b".data

def urlC7Page : List Char := "http://a.com/x/y.html".data

def refZ : List Char := "/z".data

def resBase : List Char := "http://a.com/base/z".data

def resNoBase : List Char := "http://a.com/z".data

def xS : List Char := "x".data

def slashDD : List Char := "/..".data

def pstate0 : PState := ⟨urlC7Page, none, []⟩

def pathP : List Char := "/tmp/mirror/x.txt".data

def dataOld : List Char := "old".data

def dataNew : List Char := "new".data

def urlC10 : List Char := "http://a.com/p".data

def resC10 : List Char := "http://a.com/p/#x".data

/-! ## Theorems -/

theorem splitOnC_ne_nil (c : Char) (l : List Char) : splitOnC c l ≠ [] := by
  cases l with
  | nil => simp [splitOnC]
  | cons x xs => simp only [splitOnC]; split <;> simp

theorem mem_splitOnC_sep (c : Char) :
    ∀ (l : List Char), ∀ p ∈ splitOnC c l, c ∉ p := by
  intro l
  induction l with
  | nil => intro p hp; simp [splitOnC] at hp; simp [hp]
  | cons x xs ih =>
    intro p hp
    simp only [splitOnC] at hp
    by_cases hx : x = c
    · rw [if_pos hx] at hp
      rcases List.mem_cons.mp hp with h | h
      · simp [h]
      · exact ih p h
    · rw [if_neg hx] at hp
      rcases List.mem_cons.mp hp with h | h
      · subst h
        intro hmem
        rcases List.mem_cons.mp hmem with h1 | h1
        · exact hx h1.symm
        · rcases hr : splitOnC c xs with _ | ⟨r0, rt⟩
          · exact splitOnC_ne_nil c xs hr
          · rw [hr] at h1
            exact ih r0 (by rw [hr]; exact List.mem_cons_self r0 rt) h1
      · rcases hr : splitOnC c xs with _ | ⟨r0, rt⟩
        · exact absurd hr (splitOnC_ne_nil c xs)
        · rw [hr] at h
          exact ih p (by rw [hr]; exact List.mem_cons_of_mem r0 h)

theorem splitOnC_append_left {c : Char} {x : List Char} (hx : c ∉ x) (t : List Char) :
    splitOnC c (x ++ t) = (x ++ (splitOnC c t).headD []) :: (splitOnC c t).tail := by
  induction x with
  | nil =>
    rcases ht : splitOnC c t with _ | ⟨h0, ht'⟩
    · exact absurd ht (splitOnC_ne_nil c t)
    · simp [ht]
  | cons a x' ih =>
    have ha : a ≠ c := fun h => hx (h ▸ List.mem_cons_self a x')
    have hx' : c ∉ x' := fun h => hx (List.mem_cons_of_mem a h)
    simp only [List.cons_append, splitOnC, if_neg ha, List.append_eq]
    rw [ih hx']
    simp

theorem splitOnC_single {c : Char} {x : List Char} (hx : c ∉ x) : splitOnC c x = [x] := by
  have h := splitOnC_append_left hx []
  simpa [splitOnC] using h

theorem splitOnC_cons_sep (c : Char) (t : List Char) :
    splitOnC c (c :: t) = [] :: splitOnC c t := by
  simp [splitOnC]

theorem splitOnC_joinS {c : Char} :
    ∀ (comps : List (List Char)), comps ≠ [] → (∀ p ∈ comps, c ∉ p) →
      splitOnC c (joinS c comps) = comps := by
  intro comps
  induction comps with
  | nil => intro h; exact absurd rfl h
  | cons x rest ih =>
    intro _ hall
    cases rest with
    | nil => simpa [joinS] using splitOnC_single (hall x (List.mem_cons_self x []))
    | cons y rest' =>
      have hx : c ∉ x := hall x (List.mem_cons_self x _)
      rw [show joinS c (x :: y :: rest') = x ++ c :: joinS c (y :: rest') from rfl]
      rw [splitOnC_append_left hx, splitOnC_cons_sep,
        ih (by simp) (fun p hp => hall p (List.mem_cons_of_mem x hp))]
      simp

theorem normStep_nil_comp (initSl : Nat) (acc : List (List Char)) :
    normStep initSl acc [] = acc := by
  simp [normStep]

theorem normStep_plain {comp : List Char} (h : PlainComp comp)
    (initSl : Nat) (acc : List (List Char)) :
    normStep initSl acc comp = comp :: acc := by
  obtain ⟨h1, h2, h3, _⟩ := h
  rw [normStep, if_neg (by simp [h1, h2]), if_pos (Or.inl h3)]

theorem mem_normStep {x comp : List Char} {initSl : Nat} {acc : List (List Char)}
    (h : x ∈ normStep initSl acc comp) : x = comp ∨ x ∈ acc := by
  rw [normStep] at h
  split at h
  · exact Or.inr h
  · split at h
    · rcases List.mem_cons.mp h with h1 | h1
      · exact Or.inl h1
      · exact Or.inr h1
    · cases acc with
      | nil => simp at h
      | cons a t => exact Or.inr (List.mem_cons_of_mem a h)

theorem mem_foldl_normStep {initSl : Nat} :
    ∀ (pieces : List (List Char)) (acc : List (List Char)) (x : List Char),
      x ∈ pieces.foldl (normStep initSl) acc → x ∈ acc ∨ x ∈ pieces := by
  intro pieces
  induction pieces with
  | nil => intro acc x h; exact Or.inl h
  | cons p ps ih =>
    intro acc x h
    rw [List.foldl_cons] at h
    rcases ih (normStep initSl acc p) x h with h1 | h1
    · rcases mem_normStep h1 with h2 | h2
      · exact Or.inr (h2 ▸ List.mem_cons_self p ps)
      · exact Or.inl h2
    · exact Or.inr (List.mem_cons_of_mem p h1)

theorem normStep_preserves_plain {initSl : Nat} (hs : initSl ≠ 0) {p : List Char}
    (hp : '/' ∉ p) {acc : List (List Char)} (hacc : ∀ x ∈ acc, PlainComp x) :
    ∀ x ∈ normStep initSl acc p, PlainComp x := by
  intro x hx
  rw [normStep] at hx
  split at hx
  · exact hacc x hx
  · next hguard =>
    split at hx
    · next hcond =>
      rcases List.mem_cons.mp hx with h1 | h1
      · subst h1
        have hne : ¬(x = [] ∨ x = ['.']) := hguard
        refine ⟨fun h => hne (Or.inl h), fun h => hne (Or.inr h), ?_, hp⟩
        intro hdd
        rcases hcond with hc | hc | hc
        · exact hc hdd
        · exact hs hc.1
        · cases acc with
          | nil => simp at hc
          | cons a t =>
            have : a = ['.', '.'] := by simpa using hc
            exact (hacc a (List.mem_cons_self a t)).2.2.1 this
      · exact hacc x h1
    · cases acc with
      | nil => simp at hx
      | cons a t => exact hacc x (List.mem_cons_of_mem a hx)

theorem foldl_normStep_all_plain {initSl : Nat} (hs : initSl ≠ 0) :
    ∀ (pieces : List (List Char)), (∀ p ∈ pieces, '/' ∉ p) →
      ∀ (acc : List (List Char)), (∀ x ∈ acc, PlainComp x) →
        ∀ x ∈ pieces.foldl (normStep initSl) acc, PlainComp x := by
  intro pieces
  induction pieces with
  | nil => intro _ acc hacc x hx; exact hacc x hx
  | cons p ps ih =>
    intro hsl acc hacc
    rw [List.foldl_cons]
    exact ih (fun q hq => hsl q (List.mem_cons_of_mem p hq))
      (normStep initSl acc p)
      (normStep_preserves_plain hs (hsl p (List.mem_cons_self p ps)) hacc)

theorem foldl_normStep_plain {initSl : Nat} :
    ∀ (comps : List (List Char)), (∀ x ∈ comps, PlainComp x) →
      ∀ (acc : List (List Char)),
        comps.foldl (normStep initSl) acc = comps.reverse ++ acc := by
  intro comps
  induction comps with
  | nil => intro _ acc; simp
  | cons x xs ih =>
    intro hall acc
    rw [List.foldl_cons, normStep_plain (hall x (List.mem_cons_self x xs)),
      ih (fun y hy => hall y (List.mem_cons_of_mem x hy))]
    simp

theorem take_one_eq_slash {p : List Char} (h : p.head? = some '/') :
    p.take 1 = ['/'] := by
  cases p with
  | nil => simp at h
  | cons a t => simp at h; simp [h]

theorem initialSlashes_pos {p : List Char} (h : p.head? = some '/') :
    initialSlashes p = 1 ∨ initialSlashes p = 2 := by
  rw [initialSlashes, if_pos (take_one_eq_slash h)]
  split
  · exact Or.inr rfl
  · exact Or.inl rfl

theorem initialSlashes_cons_one {j : List Char} (h : j.head? ≠ some '/') :
    initialSlashes ('/' :: j) = 1 := by
  rw [initialSlashes, if_pos (by simp)]
  rw [if_neg]
  intro hc
  apply h
  cases j with
  | nil => simp at hc
  | cons b t => simp at hc; simp [hc]

theorem initialSlashes_cons_two {j : List Char} (h : j.head? ≠ some '/') :
    initialSlashes ('/' :: '/' :: j) = 2 := by
  rw [initialSlashes, if_pos (by simp)]
  rw [if_pos]
  refine ⟨by simp, ?_⟩
  intro hc
  apply h
  cases j with
  | nil => simp at hc
  | cons b t => simp at hc; simp [hc]

theorem NF_head {initSl : Nat} (h : 1 ≤ initSl) (comps : List (List Char)) :
    (NFparts initSl comps).head? = some '/' := by
  cases initSl with
  | zero => omega
  | succ n => simp [NFparts, List.replicate]

theorem joinS_head_ne {comps : List (List Char)} (h : ∀ x ∈ comps, PlainComp x) :
    (joinS '/' comps).head? ≠ some '/' := by
  cases comps with
  | nil => simp [joinS]
  | cons x rest =>
    have hx := h x (List.mem_cons_self x rest)
    have hxne : x ≠ [] := hx.1
    have hxs : '/' ∉ x := hx.2.2.2
    cases rest with
    | nil =>
      simp only [joinS]
      intro hh
      cases x with
      | nil => exact hxne rfl
      | cons a t => simp at hh; exact hxs (hh ▸ List.mem_cons_self a t)
    | cons y rest' =>
      rw [show joinS '/' (x :: y :: rest') = x ++ '/' :: joinS '/' (y :: rest') from rfl]
      intro hh
      cases x with
      | nil => exact hxne rfl
      | cons a t => simp at hh; exact hxs (hh ▸ List.mem_cons_self a t)

theorem noDS_cons_cons {a b : Char} {rest : List Char} (ha : ¬(a = '/' ∧ b = '/')) :
    noDS (a :: b :: rest) = noDS (b :: rest) := by
  simp only [noDS]
  rw [if_neg ha]

theorem noDS_append {x t : List Char} (hx : '/' ∉ x) (ht : noDS t = true) :
    noDS (x ++ t) = true := by
  induction x with
  | nil => simpa using ht
  | cons a x' ih =>
    have ha : a ≠ '/' := fun h => hx (h ▸ List.mem_cons_self a x')
    have hx' : '/' ∉ x' := fun h => hx (List.mem_cons_of_mem a h)
    rw [List.cons_append]
    rcases hxt : x' ++ t with _ | ⟨b, rest⟩
    · simp [noDS]
    · rw [noDS_cons_cons (fun hand => ha hand.1), ← hxt]
      exact ih hx'

theorem noDS_of_not_mem {x : List Char} (hx : '/' ∉ x) : noDS x = true := by
  simpa using noDS_append hx (t := []) rfl

theorem noDS_cons_slash {j : List Char} (hj : j.head? ≠ some '/') (h : noDS j = true) :
    noDS ('/' :: j) = true := by
  cases j with
  | nil => simp [noDS]
  | cons b rest =>
    have hb : b ≠ '/' := by simpa using hj
    rw [noDS_cons_cons (fun hand => hb hand.2)]
    exact h

theorem noDS_joinS {comps : List (List Char)} (h : ∀ x ∈ comps, PlainComp x) :
    noDS (joinS '/' comps) = true := by
  induction comps with
  | nil => simp [joinS, noDS]
  | cons x rest ih =>
    cases rest with
    | nil => exact noDS_of_not_mem (h x (List.mem_cons_self x [])).2.2.2
    | cons y rest' =>
      rw [show joinS '/' (x :: y :: rest') = x ++ '/' :: joinS '/' (y :: rest') from rfl]
      refine noDS_append (h x (List.mem_cons_self x _)).2.2.2 ?_
      refine noDS_cons_slash ?_ ?_
      · exact joinS_head_ne (fun z hz => h z (List.mem_cons_of_mem x hz))
      · exact ih (fun z hz => h z (List.mem_cons_of_mem x hz))

theorem isMarker_iff (l : List Char) :
    isMarker l = true ↔ l[0]? = some ':' ∧ l[1]? = some '/' ∧ l[2]? = some '/' := by
  rw [isMarker, decide_eq_true_iff]
  rcases l with _ | ⟨a, _ | ⟨b, _ | ⟨c, rest⟩⟩⟩ <;> simp

theorem markerAt_zero_iff (l : List Char) : markerAt l 0 ↔ isMarker l = true := by
  rw [isMarker_iff, markerAt]

theorem markerAt_cons (c : Char) (rest : List Char) (m : Nat) :
    markerAt (c :: rest) (m + 1) ↔ markerAt rest m := by
  simp [markerAt]

theorem findSS_none_intro :
    ∀ (l : List Char), (∀ m, ¬ markerAt l m) → findSS l = none := by
  intro l
  induction l with
  | nil => intro _; rfl
  | cons c rest ih =>
    intro h
    rw [findSS, if_neg (fun hm => h 0 ((markerAt_zero_iff _).mpr hm)),
      ih (fun m hm => h (m + 1) ((markerAt_cons c rest m).mpr hm))]
    rfl

theorem findSS_some_intro :
    ∀ (l : List Char) (n : Nat), markerAt l n → (∀ m < n, ¬ markerAt l m) →
      findSS l = some n := by
  intro l
  induction l with
  | nil => intro n h _; simp [markerAt] at h
  | cons c rest ih =>
    intro n h hall
    cases n with
    | zero => rw [findSS, if_pos ((markerAt_zero_iff _).mp h)]
    | succ k =>
      rw [findSS, if_neg (fun hm => hall 0 (Nat.succ_pos k) ((markerAt_zero_iff _).mpr hm)),
        ih k ((markerAt_cons c rest k).mp h)
          (fun m hm => fun hmk => hall (m + 1) (by omega) ((markerAt_cons c rest m).mpr hmk))]
      rfl

theorem findSS_some_elim :
    ∀ (l : List Char) (n : Nat), findSS l = some n →
      markerAt l n ∧ ∀ m < n, ¬ markerAt l m := by
  intro l
  induction l with
  | nil => intro n h; simp [findSS] at h
  | cons c rest ih =>
    intro n h
    rw [findSS] at h
    by_cases hm : isMarker (c :: rest) = true
    · rw [if_pos hm] at h
      have hn : n = 0 := by simpa using h.symm
      subst hn
      exact ⟨(markerAt_zero_iff _).mpr hm, fun m hm' => absurd hm' (Nat.not_lt_zero m)⟩
    · rw [if_neg hm] at h
      rcases hr : findSS rest with _ | k
      · rw [hr] at h; simp at h
      · rw [hr] at h
        have hn : n = k + 1 := by simpa using h.symm
        subst hn
        obtain ⟨h1, h2⟩ := ih k hr
        refine ⟨(markerAt_cons c rest k).mpr h1, ?_⟩
        intro m hmlt
        cases m with
        | zero => exact fun hma => hm ((markerAt_zero_iff _).mp hma)
        | succ m' =>
          exact fun hma => h2 m' (by omega) ((markerAt_cons c rest m').mp hma)

theorem noDS_get :
    ∀ (l : List Char), noDS l = true →
      ∀ i, ¬ (l[i]? = some '/' ∧ l[i + 1]? = some '/') := by
  intro l
  induction l with
  | nil => intro _ i h; simp at h
  | cons a t ih =>
    intro hn i h
    cases t with
    | nil =>
      have : ([a][i + 1]? : Option Char) = none := by
        apply List.getElem?_eq_none
        simp
      rw [this] at h
      exact absurd h.2 (by simp)
    | cons b t' =>
      by_cases hab : a = '/' ∧ b = '/'
      · rw [show noDS (a :: b :: t') = false by simp only [noDS]; rw [if_pos hab]] at hn
        simp at hn
      · rw [noDS_cons_cons hab] at hn
        cases i with
        | zero =>
          simp at h
          exact hab ⟨h.1, by
            have := h.2
            simpa using this⟩
        | succ i' =>
          exact ih hn i' (by simpa using h)

theorem findSS_none_of_noDS {l : List Char} (h : noDS l = true) : findSS l = none := by
  apply findSS_none_intro
  intro m hma
  exact noDS_get l h (m + 1) ⟨hma.2.1, hma.2.2⟩

theorem NFparts_def (initSl : Nat) (comps : List (List Char)) :
    NFparts initSl comps = List.replicate initSl '/' ++ joinS '/' comps := rfl

theorem NFparts_ne_nil {initSl : Nat} (h : 1 ≤ initSl) (comps : List (List Char)) :
    NFparts initSl comps ≠ [] := by
  intro he
  rw [NFparts, List.append_eq_nil] at he
  have := he.1
  rw [List.replicate_eq_nil_iff] at this
  omega

theorem nf_of_abs {p : List Char} (h : p.head? = some '/') :
    ∃ comps, (∀ x ∈ comps, PlainComp x) ∧
      normpath p = NFparts (initialSlashes p) comps := by
  have hne : p ≠ [] := by cases p with
    | nil => simp at h
    | cons a t => simp
  have his := initialSlashes_pos h
  have hisne : initialSlashes p ≠ 0 := by rcases his with h1 | h1 <;> omega
  refine ⟨((splitOnC '/' p).foldl (normStep (initialSlashes p)) []).reverse, ?_, ?_⟩
  · intro x hx
    rw [List.mem_reverse] at hx
    exact foldl_normStep_all_plain hisne (splitOnC '/' p)
      (fun q hq => mem_splitOnC_sep '/' p q hq) [] (by simp) x hx
  · simp only [normpath]
    rw [if_neg hne]
    rw [← NFparts_def]
    rw [if_neg (NFparts_ne_nil (by omega : 1 ≤ initialSlashes p)
      ((splitOnC '/' p).foldl (normStep (initialSlashes p)) []).reverse)]

theorem initialSlashes_NF {initSl : Nat} (h1 : 1 ≤ initSl) (h2 : initSl ≤ 2)
    {comps : List (List Char)} (hp : ∀ x ∈ comps, PlainComp x) :
    initialSlashes (NFparts initSl comps) = initSl := by
  have hj := joinS_head_ne hp
  have : initSl = 1 ∨ initSl = 2 := by omega
  rcases this with h | h <;> subst h
  · exact initialSlashes_cons_one hj
  · exact initialSlashes_cons_two hj

theorem findSS_NF {initSl : Nat} (h1 : 1 ≤ initSl) (h2 : initSl ≤ 2)
    {comps : List (List Char)} (hp : ∀ x ∈ comps, PlainComp x) :
    findSS (NFparts initSl comps) = none := by
  have hj := joinS_head_ne hp
  have hone : findSS ('/' :: joinS '/' comps) = none :=
    findSS_none_of_noDS (noDS_cons_slash hj (noDS_joinS hp))
  have : initSl = 1 ∨ initSl = 2 := by omega
  rcases this with h | h <;> subst h
  · exact hone
  · show findSS ('/' :: '/' :: joinS '/' comps) = none
    rw [findSS, if_neg (by simp [isMarker]), hone]
    rfl

theorem nf_fixed {initSl : Nat} (h1 : 1 ≤ initSl) (h2 : initSl ≤ 2)
    {comps : List (List Char)} (hp : ∀ x ∈ comps, PlainComp x) :
    normpath (NFparts initSl comps) = NFparts initSl comps := by
  have hne := NFparts_ne_nil h1 comps
  have hsl : ∀ q ∈ comps, '/' ∉ q := fun q hq => (hp q hq).2.2.2
  have hsplit : splitOnC '/' (NFparts initSl comps)
      = List.replicate initSl [] ++ (if comps = [] then [([] : List Char)] else comps) := by
    have : initSl = 1 ∨ initSl = 2 := by omega
    rcases this with h | h <;> subst h
    · show splitOnC '/' ('/' :: joinS '/' comps) = _
      rw [splitOnC_cons_sep]
      cases comps with
      | nil => simp [joinS, splitOnC]
      | cons x rest => rw [splitOnC_joinS (x :: rest) (by simp) hsl]; simp
    · show splitOnC '/' ('/' :: '/' :: joinS '/' comps) = _
      rw [splitOnC_cons_sep, splitOnC_cons_sep]
      cases comps with
      | nil => simp [joinS, splitOnC, List.replicate]
      | cons x rest =>
        rw [splitOnC_joinS (x :: rest) (by simp) hsl]
        simp [List.replicate]
  have hfold : ((splitOnC '/' (NFparts initSl comps)).foldl
      (normStep initSl) []).reverse = comps := by
    rw [hsplit]
    rw [List.foldl_append]
    have hrep : (List.replicate initSl ([] : List Char)).foldl
        (normStep initSl) [] = [] := by
      have : initSl = 1 ∨ initSl = 2 := by omega
      rcases this with h | h <;> subst h <;>
        simp [List.replicate, normStep_nil_comp]
    rw [hrep]
    cases comps with
    | nil => simp [normStep_nil_comp]
    | cons x rest =>
      rw [if_neg (by simp)]
      rw [foldl_normStep_plain (x :: rest) hp []]
      simp
  simp only [normpath]
  rw [if_neg hne, initialSlashes_NF h1 h2 hp, hfold]
  rw [← NFparts_def]
  rw [if_neg (NFparts_ne_nil h1 comps)]

theorem normpath_abs_head {p : List Char} (h : p.head? = some '/') :
    (normpath p).head? = some '/' := by
  obtain ⟨comps, hp, he⟩ := nf_of_abs h
  rw [he]
  exact NF_head (by rcases initialSlashes_pos h with h1 | h1 <;> omega) comps

theorem normpath_idem_abs {p : List Char} (h : p.head? = some '/') :
    normpath (normpath p) = normpath p := by
  obtain ⟨comps, hp, he⟩ := nf_of_abs h
  have his := initialSlashes_pos h
  rw [he]
  exact nf_fixed (by rcases his with h1 | h1 <;> omega)
    (by rcases his with h1 | h1 <;> omega) hp

theorem normComps_plain {p : List Char} (h : p.head? = some '/') :
    ∀ x ∈ normComps p, PlainComp x := by
  have hisne : initialSlashes p ≠ 0 := by
    rcases initialSlashes_pos h with h1 | h1 <;> omega
  intro x hx
  rw [normComps, List.mem_reverse] at hx
  exact foldl_normStep_all_plain hisne (splitOnC '/' p)
    (fun q hq => mem_splitOnC_sep '/' p q hq) [] (by simp) x hx

theorem normpath_abs_eq {p : List Char} (h : p.head? = some '/') :
    normpath p = NFparts (initialSlashes p) (normComps p) := by
  have hne : p ≠ [] := by
    cases p with
    | nil => simp at h
    | cons a t => simp
  simp only [normpath, normComps]
  rw [if_neg hne, ← NFparts_def]
  rw [if_neg (NFparts_ne_nil
    (by rcases initialSlashes_pos h with h1 | h1 <;> omega) _)]

theorem mem_joinS {a sep : Char} :
    ∀ (comps : List (List Char)), a ∈ joinS sep comps →
      a = sep ∨ ∃ x ∈ comps, a ∈ x := by
  intro comps
  induction comps with
  | nil => intro h; simp [joinS] at h
  | cons x rest ih =>
    cases rest with
    | nil => intro h; exact Or.inr ⟨x, List.mem_cons_self x [], h⟩
    | cons y rest' =>
      intro h
      rw [show joinS sep (x :: y :: rest') = x ++ sep :: joinS sep (y :: rest') from rfl] at h
      rcases List.mem_append.mp h with h1 | h1
      · exact Or.inr ⟨x, List.mem_cons_self x _, h1⟩
      · rcases List.mem_cons.mp h1 with h2 | h2
        · exact Or.inl h2
        · rcases ih h2 with h3 | ⟨z, hz, haz⟩
          · exact Or.inl h3
          · exact Or.inr ⟨z, List.mem_cons_of_mem x hz, haz⟩

theorem mem_of_mem_splitOnC {c a : Char} :
    ∀ (l : List Char), ∀ p ∈ splitOnC c l, a ∈ p → a ∈ l := by
  intro l
  induction l with
  | nil => intro p hp ha; simp [splitOnC] at hp; rw [hp] at ha; simp at ha
  | cons x xs ih =>
    intro p hp ha
    simp only [splitOnC] at hp
    by_cases hx : x = c
    · rw [if_pos hx] at hp
      rcases List.mem_cons.mp hp with h | h
      · rw [h] at ha; simp at ha
      · exact List.mem_cons_of_mem x (ih p h ha)
    · rw [if_neg hx] at hp
      rcases hr : splitOnC c xs with _ | ⟨r0, rt⟩
      · exact absurd hr (splitOnC_ne_nil c xs)
      · rw [hr] at hp
        rcases List.mem_cons.mp hp with h | h
        · rw [h] at ha
          rcases List.mem_cons.mp ha with h1 | h1
          · exact h1 ▸ List.mem_cons_self x xs
          · refine List.mem_cons_of_mem x (ih r0 ?_ (by simpa using h1))
            rw [hr]; exact List.mem_cons_self r0 rt
        · exact List.mem_cons_of_mem x
            (ih p (by rw [hr]; exact List.mem_cons_of_mem r0 h) ha)

theorem mem_normpath_abs {p : List Char} {a : Char} (h : p.head? = some '/')
    (ha : a ∈ normpath p) : a = '/' ∨ a ∈ p := by
  rw [normpath_abs_eq h, NFparts_def] at ha
  rcases List.mem_append.mp ha with h1 | h1
  · exact Or.inl (List.eq_of_mem_replicate h1)
  · rcases mem_joinS (normComps p) h1 with h2 | ⟨x, hx, hax⟩
    · exact Or.inl h2
    · rw [normComps, List.mem_reverse] at hx
      rcases mem_foldl_normStep (splitOnC '/' p) [] x hx with h3 | h3
      · simp at h3
      · exact Or.inr (mem_of_mem_splitOnC p x h3 hax)

theorem no_q_takeBeforeQ (u : List Char) : '?' ∉ takeBeforeQ u := by
  intro h
  have := List.mem_takeWhile_imp h
  simp at this

theorem takeBeforeQ_of_no_q {l : List Char} (h : '?' ∉ l) : takeBeforeQ l = l := by
  rw [takeBeforeQ, List.takeWhile_eq_self_iff]
  intro x hx
  simp
  intro he
  exact h (he ▸ hx)

theorem clean_url_eq_marker {u : List Char} {pos : Nat}
    (h : findSS (takeBeforeQ u) = some pos) :
    clean_url u = (takeBeforeQ u).take (pos + 2)
      ++ normpath ((takeBeforeQ u).drop (pos + 2)) := by
  simp only [clean_url, abspath]
  rw [h]

theorem clean_url_eq_abs {u : List Char} (h : findSS (takeBeforeQ u) = none)
    (h2 : (takeBeforeQ u).head? = some '/') :
    clean_url u = normpath (takeBeforeQ u) := by
  simp only [clean_url, abspath]
  rw [h, if_pos h2]

theorem clean_url_eq_rel {u : List Char} (h : findSS (takeBeforeQ u) = none)
    (h2 : (takeBeforeQ u).head? ≠ some '/') :
    clean_url u = (normpath ('/' :: takeBeforeQ u)).tail := by
  simp only [clean_url, abspath]
  rw [h, if_neg h2]

theorem no_q_clean (u : List Char) : '?' ∉ clean_url u := by
  rcases h : findSS (takeBeforeQ u) with _ | pos
  · by_cases hh : (takeBeforeQ u).head? = some '/'
    · rw [clean_url_eq_abs h hh]
      intro hmem
      rcases mem_normpath_abs hh hmem with h1 | h1
      · simp at h1
      · exact no_q_takeBeforeQ u h1
    · rw [clean_url_eq_rel h hh]
      intro hmem
      have hmem2 : '?' ∈ normpath ('/' :: takeBeforeQ u) := List.mem_of_mem_tail hmem
      rcases mem_normpath_abs (by simp) hmem2 with h1 | h1
      · simp at h1
      · rcases List.mem_cons.mp h1 with h2 | h2
        · simp at h2
        · exact no_q_takeBeforeQ u h2
  · obtain ⟨hm, _⟩ := findSS_some_elim _ pos h
    have hdro : ((takeBeforeQ u).drop (pos + 2)).head? = some '/' := by
      rw [List.head?_eq_getElem?, List.getElem?_drop]
      simpa using hm.2.2
    rw [clean_url_eq_marker h]
    intro hmem
    rcases List.mem_append.mp hmem with h1 | h1
    · exact no_q_takeBeforeQ u (List.take_subset _ _ h1)
    · rcases mem_normpath_abs hdro h1 with h2 | h2
      · simp at h2
      · exact no_q_takeBeforeQ u (List.drop_subset _ _ h2)

theorem take_marker_len {p : List Char} {pos : Nat} (h : findSS p = some pos) :
    (p.take (pos + 2)).length = pos + 2 := by
  obtain ⟨hm, _⟩ := findSS_some_elim p pos h
  obtain ⟨hlt, _⟩ := List.getElem?_eq_some_iff.mp hm.2.2
  simp [List.length_take]
  omega

theorem findSS_take_append {p q : List Char} {pos : Nat} (h : findSS p = some pos)
    (hq : q.head? = some '/') :
    findSS (p.take (pos + 2) ++ q) = some pos := by
  obtain ⟨hm, hall⟩ := findSS_some_elim p pos h
  have hlen := take_marker_len h
  apply findSS_some_intro
  · refine ⟨?_, ?_, ?_⟩
    · rw [List.getElem?_append_left (by omega), List.getElem?_take_of_lt (by omega)]
      exact hm.1
    · rw [List.getElem?_append_left (by omega), List.getElem?_take_of_lt (by omega)]
      exact hm.2.1
    · rw [List.getElem?_append_right (by omega), hlen]
      simpa [List.head?_eq_getElem?] using hq
  · intro m hmlt hma
    apply hall m hmlt
    obtain ⟨a1, a2, a3⟩ := hma
    rw [List.getElem?_append_left (by omega), List.getElem?_take_of_lt (by omega)] at a1
    rw [List.getElem?_append_left (by omega), List.getElem?_take_of_lt (by omega)] at a2
    rw [List.getElem?_append_left (by omega), List.getElem?_take_of_lt (by omega)] at a3
    exact ⟨a1, a2, a3⟩

theorem clean_url_idem (u : List Char) : clean_url (clean_url u) = clean_url u := by
  have hq1 : takeBeforeQ (clean_url u) = clean_url u := takeBeforeQ_of_no_q (no_q_clean u)
  rcases h : findSS (takeBeforeQ u) with _ | pos
  · by_cases hh : (takeBeforeQ u).head? = some '/'
    · have e1 : clean_url u = normpath (takeBeforeQ u) := clean_url_eq_abs h hh
      have hb := initialSlashes_pos hh
      have hn2 : findSS (takeBeforeQ (clean_url u)) = none := by
        rw [hq1, e1, normpath_abs_eq hh]
        exact findSS_NF (by omega) (by omega) (normComps_plain hh)
      have hh2 : (takeBeforeQ (clean_url u)).head? = some '/' := by
        rw [hq1, e1]
        exact normpath_abs_head hh
      rw [clean_url_eq_abs hn2 hh2, hq1, e1]
      exact normpath_idem_abs hh
    · have e1 : clean_url u = (normpath ('/' :: takeBeforeQ u)).tail := clean_url_eq_rel h hh
      have hslash : ('/' :: takeBeforeQ u).head? = some '/' := rfl
      have his1 : initialSlashes ('/' :: takeBeforeQ u) = 1 := initialSlashes_cons_one hh
      have hpl : ∀ x ∈ normComps ('/' :: takeBeforeQ u), PlainComp x := normComps_plain hslash
      have e3 : clean_url u = joinS '/' (normComps ('/' :: takeBeforeQ u)) := by
        rw [e1, normpath_abs_eq hslash, his1, NFparts_def]
        simp [List.replicate]
      have hn2 : findSS (takeBeforeQ (clean_url u)) = none := by
        rw [hq1, e3]
        exact findSS_none_of_noDS (noDS_joinS hpl)
      have hh2 : (takeBeforeQ (clean_url u)).head? ≠ some '/' := by
        rw [hq1, e3]
        exact joinS_head_ne hpl
      rw [clean_url_eq_rel hn2 hh2, hq1, e3]
      have hnf : ('/' :: joinS '/' (normComps ('/' :: takeBeforeQ u)))
          = NFparts 1 (normComps ('/' :: takeBeforeQ u)) := by
        rw [NFparts_def]
        simp [List.replicate]
      rw [hnf, nf_fixed (by omega) (by omega) hpl, NFparts_def]
      simp [List.replicate]
  · obtain ⟨hm, _⟩ := findSS_some_elim _ pos h
    have hdro : ((takeBeforeQ u).drop (pos + 2)).head? = some '/' := by
      rw [List.head?_eq_getElem?, List.getElem?_drop]
      simpa using hm.2.2
    have e1 : clean_url u = (takeBeforeQ u).take (pos + 2)
        ++ normpath ((takeBeforeQ u).drop (pos + 2)) := clean_url_eq_marker h
    have hnh : (normpath ((takeBeforeQ u).drop (pos + 2))).head? = some '/' :=
      normpath_abs_head hdro
    have hss2 : findSS (takeBeforeQ (clean_url u)) = some pos := by
      rw [hq1, e1]
      exact findSS_take_append h hnh
    have hlen := take_marker_len h
    rw [clean_url_eq_marker hss2, hq1, e1, List.take_left' hlen, List.drop_left' hlen,
      normpath_idem_abs hdro]

theorem takeBeforeQ_append_no_q {s : List Char} (t : List Char) (hs : '?' ∉ s) :
    takeBeforeQ (s ++ t) = s ++ takeBeforeQ t := by
  induction s with
  | nil => rfl
  | cons a s' ih =>
    have ha : a ≠ '?' := fun h => hs (h ▸ List.mem_cons_self a s')
    have hs' : '?' ∉ s' := fun h => hs (List.mem_cons_of_mem a h)
    simp only [List.cons_append, takeBeforeQ, List.takeWhile_cons]
    rw [if_pos (by simpa using ha)]
    have := ih hs'
    simp only [takeBeforeQ] at this
    rw [this]

theorem findSS_scheme {s t : List Char} (hs : ':' ∉ s) :
    findSS (s ++ ':' :: '/' :: '/' :: t) = some s.length := by
  apply findSS_some_intro
  · refine ⟨?_, ?_, ?_⟩
    · rw [List.getElem?_append_right (Nat.le_refl _)]
      simp
    · rw [List.getElem?_append_right (by omega)]
      have : s.length + 1 - s.length = 1 := by omega
      rw [this]
      simp
    · rw [List.getElem?_append_right (by omega)]
      have : s.length + 2 - s.length = 2 := by omega
      rw [this]
      simp
  · intro m hm hma
    have h1 := hma.1
    rw [List.getElem?_append_left hm] at h1
    exact hs (List.getElem?_mem h1)

theorem clean_url_scheme {s : List Char} (t : List Char) (hsc : ':' ∉ s) (hsq : '?' ∉ s) :
    clean_url (s ++ ':' :: '/' :: '/' :: t)
      = (s ++ [':', '/']) ++ normpath ('/' :: takeBeforeQ t) := by
  have htb : takeBeforeQ (s ++ ':' :: '/' :: '/' :: t)
      = s ++ ':' :: '/' :: '/' :: takeBeforeQ t := by
    rw [takeBeforeQ_append_no_q _ hsq]
    rw [show (':' :: '/' :: '/' :: t) = [':', '/', '/'] ++ t from rfl,
      takeBeforeQ_append_no_q t (by decide)]
    rfl
  have hss : findSS (takeBeforeQ (s ++ ':' :: '/' :: '/' :: t)) = some s.length := by
    rw [htb]
    exact findSS_scheme hsc
  rw [clean_url_eq_marker hss, htb]
  have hsplit : s ++ ':' :: '/' :: '/' :: takeBeforeQ t
      = (s ++ [':', '/']) ++ '/' :: takeBeforeQ t := by
    simp
  have hlen : (s ++ [':', '/']).length = s.length + 2 := by simp
  rw [hsplit, List.take_left' hlen, List.drop_left' hlen]

theorem foldl_handle_eq (u : List Char) :
    ∀ (evts : List TagEvent) (b : Option (List Char)) (L : List (List Char)),
      (evts.foldl (fun st ev => handle_starttag st ev.1 ev.2)
        ⟨u, b, L⟩ : PState).m_list
      = dedupKeep u L (candidates u b evts) := by
  intro evts
  induction evts with
  | nil => intro b L; rfl
  | cons ev rest ih =>
    intro b L
    obtain ⟨tag, attrs⟩ := ev
    rw [List.foldl_cons]
    by_cases hb : tag.map Char.toLower = baseS
    · rcases hg : get_attr attrs hrefS with _ | href
      · have hst : handle_starttag ⟨u, b, L⟩ tag attrs = ⟨u, b, L⟩ := by
          simp only [handle_starttag]
          rw [if_pos hb]
          simp only [hg]
        have hc : candidates u b ((tag, attrs) :: rest) = candidates u b rest := by
          simp only [candidates]
          rw [if_pos hb]
          simp only [hg]
        rw [hst, hc, ih]
      · have hst : handle_starttag ⟨u, b, L⟩ tag attrs
            = ⟨u, some (clean_url href), L⟩ := by
          simp only [handle_starttag]
          rw [if_pos hb]
          simp only [hg]
        have hc : candidates u b ((tag, attrs) :: rest)
            = candidates u (some (clean_url href)) rest := by
          simp only [candidates]
          rw [if_pos hb]
          simp only [hg]
        rw [hst, hc, ih]
    · by_cases hal : tag.map Char.toLower = aS ∨ tag.map Char.toLower = linkS
      · rcases hg : get_attr attrs hrefS with _ | href
        · have hst : handle_starttag ⟨u, b, L⟩ tag attrs = ⟨u, b, L⟩ := by
            simp only [handle_starttag]
            rw [if_neg hb]
            rw [if_pos hal]
            simp only [hg]
          have hc : candidates u b ((tag, attrs) :: rest) = candidates u b rest := by
            simp only [candidates]
            rw [if_neg hb]
            rw [if_pos hal]
            simp only [hg]
          rw [hst, hc, ih]
        · by_cases hsk : href.head? = some '#' ∨ href.head? = some '?'
          · have hst : handle_starttag ⟨u, b, L⟩ tag attrs = ⟨u, b, L⟩ := by
              simp only [handle_starttag]
              rw [if_neg hb]
              rw [if_pos hal]
              simp only [hg]
              rw [if_pos hsk]
            have hc : candidates u b ((tag, attrs) :: rest) = candidates u b rest := by
              simp only [candidates]
              rw [if_neg hb]
              rw [if_pos hal]
              simp only [hg]
              rw [if_pos hsk]
            rw [hst, hc, ih]
          · rcases hcr : create_url u b href with _ | path
            · have hst : handle_starttag ⟨u, b, L⟩ tag attrs = ⟨u, b, L⟩ := by
                simp only [handle_starttag]
                rw [if_neg hb]
                rw [if_pos hal]
                simp only [hg]
                rw [if_neg hsk]
                simp only [hcr]
              have hc : candidates u b ((tag, attrs) :: rest) = candidates u b rest := by
                simp only [candidates]
                rw [if_neg hb]
                rw [if_pos hal]
                simp only [hg]
                rw [if_neg hsk]
                simp only [hcr]
              rw [hst, hc, ih]
            · have hc : candidates u b ((tag, attrs) :: rest)
                  = path :: candidates u b rest := by
                simp only [candidates]
                rw [if_neg hb]
                rw [if_pos hal]
                simp only [hg]
                rw [if_neg hsk]
                simp only [hcr]
              rw [hc]
              by_cases hadd : path ≠ u ∧ path ∉ L
              · have hst : handle_starttag ⟨u, b, L⟩ tag attrs = ⟨u, b, L ++ [path]⟩ := by
                  simp only [handle_starttag]
                  rw [if_neg hb]
                  rw [if_pos hal]
                  simp only [hg]
                  rw [if_neg hsk]
                  simp only [hcr]
                  rw [if_pos hadd]
                rw [hst, ih]
                rw [show dedupKeep u L (path :: candidates u b rest)
                  = dedupKeep u (L ++ [path]) (candidates u b rest) from by
                  simp only [dedupKeep]; rw [if_pos hadd]]
              · have hst : handle_starttag ⟨u, b, L⟩ tag attrs = ⟨u, b, L⟩ := by
                  simp only [handle_starttag]
                  rw [if_neg hb]
                  rw [if_pos hal]
                  simp only [hg]
                  rw [if_neg hsk]
                  simp only [hcr]
                  rw [if_neg hadd]
                rw [hst, ih]
                rw [show dedupKeep u L (path :: candidates u b rest)
                  = dedupKeep u L (candidates u b rest) from by
                  simp only [dedupKeep]; rw [if_neg hadd]]
      · by_cases hsc : tag.map Char.toLower = scriptS
        · rcases hg : get_attr attrs srcS with _ | src
          · have hst : handle_starttag ⟨u, b, L⟩ tag attrs = ⟨u, b, L⟩ := by
              simp only [handle_starttag]
              rw [if_neg hb]
              rw [if_neg hal]
              rw [if_pos hsc]
              simp only [hg]
            have hc : candidates u b ((tag, attrs) :: rest) = candidates u b rest := by
              simp only [candidates]
              rw [if_neg hb]
              rw [if_neg hal]
              rw [if_pos hsc]
              simp only [hg]
            rw [hst, hc, ih]
          · rcases hcr : create_url u b src with _ | path
            · have hst : handle_starttag ⟨u, b, L⟩ tag attrs = ⟨u, b, L⟩ := by
                simp only [handle_starttag]
                rw [if_neg hb]
                rw [if_neg hal]
                rw [if_pos hsc]
                simp only [hg]
                simp only [hcr]
              have hc : candidates u b ((tag, attrs) :: rest) = candidates u b rest := by
                simp only [candidates]
                rw [if_neg hb]
                rw [if_neg hal]
                rw [if_pos hsc]
                simp only [hg]
                simp only [hcr]
              rw [hst, hc, ih]
            · have hc : candidates u b ((tag, attrs) :: rest)
                  = path :: candidates u b rest := by
                simp only [candidates]
                rw [if_neg hb]
                rw [if_neg hal]
                rw [if_pos hsc]
                simp only [hg]
                simp only [hcr]
              rw [hc]
              by_cases hadd : path ≠ u ∧ path ∉ L
              · have hst : handle_starttag ⟨u, b, L⟩ tag attrs = ⟨u, b, L ++ [path]⟩ := by
                  simp only [handle_starttag]
                  rw [if_neg hb]
                  rw [if_neg hal]
                  rw [if_pos hsc]
                  simp only [hg]
                  simp only [hcr]
                  rw [if_pos hadd]
                rw [hst, ih]
                rw [show dedupKeep u L (path :: candidates u b rest)
                  = dedupKeep u (L ++ [path]) (candidates u b rest) from by
                  simp only [dedupKeep]; rw [if_pos hadd]]
              · have hst : handle_starttag ⟨u, b, L⟩ tag attrs = ⟨u, b, L⟩ := by
                  simp only [handle_starttag]
                  rw [if_neg hb]
                  rw [if_neg hal]
                  rw [if_pos hsc]
                  simp only [hg]
                  simp only [hcr]
                  rw [if_neg hadd]
                rw [hst, ih]
                rw [show dedupKeep u L (path :: candidates u b rest)
                  = dedupKeep u L (candidates u b rest) from by
                  simp only [dedupKeep]; rw [if_neg hadd]]
        · have hst : handle_starttag ⟨u, b, L⟩ tag attrs = ⟨u, b, L⟩ := by
            simp only [handle_starttag]
            rw [if_neg hb, if_neg hal, if_neg hsc]
          have hc : candidates u b ((tag, attrs) :: rest) = candidates u b rest := by
            simp only [candidates]
            rw [if_neg hb, if_neg hal, if_neg hsc]
          rw [hst, hc, ih]

theorem dedupKeep_nodup (u : List Char) :
    ∀ (cands acc : List (List Char)), acc.Nodup → (dedupKeep u acc cands).Nodup := by
  intro cands
  induction cands with
  | nil => intro acc h; exact h
  | cons p ps ih =>
    intro acc h
    simp only [dedupKeep]
    split
    · next hc =>
      refine ih (acc ++ [p]) ?_
      simp [List.nodup_append, h, hc.2]
    · exact ih acc h

theorem dedupKeep_not_self (u : List Char) :
    ∀ (cands acc : List (List Char)), u ∉ acc → u ∉ dedupKeep u acc cands := by
  intro cands
  induction cands with
  | nil => intro acc h; exact h
  | cons p ps ih =>
    intro acc h
    simp only [dedupKeep]
    split
    · next hc =>
      refine ih (acc ++ [p]) ?_
      simp [h]
      exact fun he => hc.1 he.symm
    · exact ih acc h

theorem analyze_m_list_eq (url : List Char) (evts : List TagEvent) :
    (analyze url evts).m_list
      = dedupKeep (clean_url url) [] (candidates (clean_url url) none evts) :=
  foldl_handle_eq (clean_url url) evts none []

theorem analyze_nodup (url : List Char) (evts : List TagEvent) :
    (analyze url evts).m_list.Nodup := by
  rw [analyze_m_list_eq]
  exact dedupKeep_nodup _ _ [] (by simp)

theorem analyze_not_self (url : List Char) (evts : List TagEvent) :
    clean_url url ∉ (analyze url evts).m_list := by
  rw [analyze_m_list_eq]
  exact dedupKeep_not_self _ _ [] (by simp)

theorem handle_skip_fragment (st : PState) (tag : List Char)
    (attrs : List (List Char × Option (List Char))) (c : Char) (r : List Char)
    (htag : tag.map Char.toLower = aS ∨ tag.map Char.toLower = linkS)
    (hattr : get_attr attrs hrefS = some (c :: r)) (hc : c = '#' ∨ c = '?') :
    handle_starttag st tag attrs = st := by
  have hnb : ¬ tag.map Char.toLower = baseS := by
    rcases htag with h | h <;> rw [h] <;> decide
  simp only [handle_starttag]
  rw [if_neg hnb, if_pos htag]
  simp only [hattr]
  rw [if_pos]
  rcases hc with h | h <;> subst h
  · exact Or.inl (by simp)
  · exact Or.inr (by simp)

theorem create_url_root (m_url : List Char) (m_base : Option (List Char))
    (ref : List Char) (h : clean_url (takeBeforeQ ref) = ['/']) :
    create_url m_url m_base ref = none := by
  simp only [create_url]
  rw [if_pos h]

theorem create_url_base (m_url b ref : List Char)
    (h1 : (clean_url (takeBeforeQ ref)).head? = some '/')
    (h2 : clean_url (takeBeforeQ ref) ≠ ['/']) :
    create_url m_url (some b) ref
      = some (path_join b (clean_url (takeBeforeQ ref))) := by
  simp only [create_url]
  rw [if_neg h2, if_pos h1]

theorem create_url_no_base (m_url ref : List Char) (q : Nat)
    (h1 : (clean_url (takeBeforeQ ref)).head? = some '/')
    (h2 : clean_url (takeBeforeQ ref) ≠ ['/'])
    (h3 : (match findSS m_url with
           | some p => findCharFrom m_url '/' (p + 3)
           | none => findCharFrom m_url '/' 0) = some q) :
    create_url m_url none ref
      = some (path_join (m_url.take q) (clean_url (takeBeforeQ ref))) := by
  simp only [create_url]
  rw [if_neg h2, if_pos h1, h3]

theorem proceed_default (url : List Char) (depth : Nat) :
    proceed url defaultOpts [] depth = true := by
  simp [proceed, defaultOpts]

theorem walkFuel_zero (site : Site) (u : List Char) (opts : Opts)
    (dups : List (List Char)) (depth : Nat) (rec : Bool) (par : Option (List Char))
    (fs : FileSys) :
    walkFuel site 0 u opts dups depth rec par fs = ⟨fs, [], [], false⟩ := rfl

theorem walk_no_fetch (site : Site) (f : Nat) (u : List Char) (opts : Opts)
    (dups : List (List Char)) (depth : Nat) (rec : Bool) (par : Option (List Char))
    (fs : FileSys) (h : proceed (clean_url u) opts dups depth = false) :
    walkFuel site (f + 1) u opts dups depth rec par fs = ⟨fs, [], [], true⟩ := by
  simp only [walkFuel]
  rw [if_pos h]

theorem walk_html_eq (site : Site) (f : Nat) (u : List Char) (opts : Opts)
    (dups : List (List Char)) (depth : Nat) (par : Option (List Char)) (fs : FileSys)
    (page : Page) (h1 : proceed (clean_url u) opts dups depth = true)
    (h2 : site (clean_url u) = some page) (h3 : page.isHtml = true) :
    walkFuel site (f + 1) u opts dups depth true par fs =
      ((analyze (clean_url u) page.events).m_list).foldl
        (fun acc newurl =>
          combineW acc
            (walkFuel site f newurl opts dups (depth + 1)
              ((clean_url u).isPrefixOf newurl) (some (clean_url u)) acc.fs))
        ⟨if display (clean_url u) opts then mirrorFS (clean_url u) opts page.content fs
            else fs,
          [clean_url u],
          if display (clean_url u) opts then [clean_url u] else [],
          true⟩ := by
  simp only [walkFuel]
  rw [if_neg (by simp [h1])]
  simp only [h2]
  rw [if_pos (by simp [h3])]

theorem walkC2_loop :
    ∀ (f : Nat) (u : List Char) (depth : Nat) (par : Option (List Char)) (fs : FileSys),
      clean_url u = urlC2 →
      (walkFuel siteC2 f u defaultOpts [] depth true par fs).completed = false := by
  intro f
  induction f with
  | zero => intro u depth par fs _; rfl
  | succ f ih =>
    intro u depth par fs hu
    have h2 : siteC2 (clean_url u) = some pageC2 := by rw [hu]; simp [siteC2]
    rw [walk_html_eq siteC2 f u defaultOpts [] depth par fs pageC2
      (proceed_default _ _) h2 rfl]
    rw [hu]
    have hlist : (analyze urlC2 pageC2.events).m_list = [urlC2 ++ ['/']] := by decide
    rw [hlist, List.foldl_cons, List.foldl_nil]
    have hflag : urlC2.isPrefixOf (urlC2 ++ ['/']) = true := by decide
    rw [hflag]
    have hrec := ih (urlC2 ++ ['/']) (depth + 1) (some urlC2)
      (if display urlC2 defaultOpts then mirrorFS urlC2 defaultOpts pageC2.content fs
        else fs) (by decide)
    simp only [combineW, hrec]
    simp

theorem mirrorFS_eq_applyWrites (url : List Char) (opts : Opts) (content : List Char)
    (fs : FileSys) :
    mirrorFS url opts content fs = applyWrites fs (mirrorWrites url opts content) := by
  simp only [mirrorFS, mirrorWrites]
  cases hr : create_reppath url opts <;> cases hc : create_cppath url opts <;>
    simp [applyWrites]

theorem applyWrites_append (w1 w2 : List (List Char × List Char)) :
    ∀ fs, applyWrites fs (w1 ++ w2) = applyWrites (applyWrites fs w1) w2 := by
  induction w1 with
  | nil => intro fs; rfl
  | cons e w ih =>
    intro fs
    obtain ⟨p, d⟩ := e
    simp only [List.cons_append, applyWrites]
    exact ih (copy_to_file fs d p)

theorem foldl_append_out {α β : Type} (g : α → List β) :
    ∀ (links : List α) (w0 : List β),
      links.foldl (fun a n => a ++ g n) w0 = w0 ++ links.foldl (fun a n => a ++ g n) [] := by
  intro links
  induction links with
  | nil => intro w0; simp
  | cons n ls ih =>
    intro w0
    rw [List.foldl_cons, List.foldl_cons, ih (w0 ++ g n), ih ([] ++ g n)]
    simp

theorem walkFuel_fs_eq (site : Site) :
    ∀ (f : Nat) (u : List Char) (opts : Opts) (dups : List (List Char)) (depth : Nat)
      (rec : Bool) (par : Option (List Char)) (fs : FileSys),
      (walkFuel site f u opts dups depth rec par fs).fs
        = applyWrites fs (walkWrites site f u opts dups depth rec) := by
  intro f
  induction f with
  | zero => intro u opts dups depth rec par fs; rfl
  | succ f ih =>
    intro u opts dups depth rec par fs
    simp only [walkFuel, walkWrites]
    by_cases hp : proceed (clean_url u) opts dups depth = false
    · rw [if_pos hp, if_pos hp]
      rfl
    · rw [if_neg hp, if_neg hp]
      cases hs0 : site (clean_url u) with
      | none => rfl
      | some page =>
        dsimp only
        have hfs1 : (if display (clean_url u) opts
              then mirrorFS (clean_url u) opts page.content fs else fs)
            = applyWrites fs (if display (clean_url u) opts
              then mirrorWrites (clean_url u) opts page.content else []) := by
          cases hd : display (clean_url u) opts
          · simp [applyWrites]
          · simp [mirrorFS_eq_applyWrites]
        by_cases hh : (page.isHtml && rec) = true
        · rw [if_pos hh, if_pos hh]
          have hinner : ∀ (links : List (List Char)) (init : WalkResult),
              (links.foldl
                (fun acc newurl =>
                  combineW acc
                    (walkFuel site f newurl opts dups (depth + 1)
                      ((clean_url u).isPrefixOf newurl) (some (clean_url u)) acc.fs))
                init).fs
              = applyWrites init.fs
                  (links.foldl
                    (fun acc newurl =>
                      acc ++ walkWrites site f newurl opts dups (depth + 1)
                        ((clean_url u).isPrefixOf newurl))
                    []) := by
            intro links
            induction links with
            | nil => intro init; rfl
            | cons n ls ihl =>
              intro init
              rw [List.foldl_cons, List.foldl_cons, ihl, foldl_append_out]
              simp only [combineW]
              rw [ih, List.nil_append, List.nil_append]
              rw [foldl_append_out _ ls
                (walkWrites site f n opts dups (depth + 1) ((clean_url u).isPrefixOf n))]
              rw [applyWrites_append]
          rw [hinner, applyWrites_append, hfs1]
        · rw [if_neg hh, if_neg hh]
          exact hfs1

theorem fsLookup_cons (e : List Char × List Char) (fs : FileSys) (p : List Char) :
    fsLookup (e :: fs) p = if e.1 = p then some e.2 else fsLookup fs p := by
  by_cases he : e.1 = p
  · simp [fsLookup, List.find?_cons_of_pos, he]
  · simp [fsLookup, List.find?_cons_of_neg, he]

theorem fsLookup_append_of_some {fs : FileSys} {p c : List Char}
    (h : fsLookup fs p = some c) (l : FileSys) : fsLookup (fs ++ l) p = some c := by
  induction fs with
  | nil => simp [fsLookup] at h
  | cons e fs' ih =>
    rw [fsLookup_cons] at h
    rw [List.cons_append, fsLookup_cons]
    by_cases he : e.1 = p
    · rw [if_pos he] at h; rw [if_pos he]; exact h
    · rw [if_neg he] at h; rw [if_neg he]; exact ih h

theorem fsLookup_append_self {fs : FileSys} {p : List Char}
    (h : fsLookup fs p = none) (d : List Char) :
    fsLookup (fs ++ [(p, d)]) p = some d := by
  induction fs with
  | nil => simp [fsLookup]
  | cons e fs' ih =>
    rw [fsLookup_cons] at h
    rw [List.cons_append, fsLookup_cons]
    by_cases he : e.1 = p
    · rw [if_pos he] at h; simp at h
    · rw [if_neg he] at h; rw [if_neg he]; exact ih h

theorem copy_to_file_of_some {fs : FileSys} {p : List Char} (d : List Char)
    (h : (fsLookup fs p).isSome) : copy_to_file fs d p = fs := by
  obtain ⟨c, hc⟩ := Option.isSome_iff_exists.mp h
  rw [copy_to_file, if_neg]
  simp [hc]

theorem fsLookup_copy_self (fs : FileSys) (d p : List Char) :
    (fsLookup (copy_to_file fs d p) p).isSome := by
  rw [copy_to_file]
  split
  · next hn =>
    have hnone : fsLookup fs p = none := by simpa [Option.isNone_iff_eq_none] using hn
    rw [fsLookup_append_self hnone d]
    rfl
  · next hn =>
    simp [Option.isNone_iff_eq_none] at hn
    simp [Option.isSome_iff_ne_none, hn]

theorem fsLookup_copy_of_some {fs : FileSys} {p c : List Char} (d q : List Char)
    (h : fsLookup fs p = some c) : fsLookup (copy_to_file fs d q) p = some c := by
  rw [copy_to_file]
  split
  · exact fsLookup_append_of_some h _
  · exact h

theorem applyWrites_some {p c : List Char} :
    ∀ (w : List (List Char × List Char)) (fs : FileSys),
      fsLookup fs p = some c → fsLookup (applyWrites fs w) p = some c := by
  intro w
  induction w with
  | nil => intro fs h; exact h
  | cons e w' ih =>
    intro fs h
    obtain ⟨q, d⟩ := e
    simp only [applyWrites]
    exact ih _ (fsLookup_copy_of_some d q h)

theorem applyWrites_isSome {p : List Char} (w : List (List Char × List Char))
    (fs : FileSys) (h : (fsLookup fs p).isSome) :
    (fsLookup (applyWrites fs w) p).isSome := by
  obtain ⟨c, hc⟩ := Option.isSome_iff_exists.mp h
  rw [applyWrites_some w fs hc]
  rfl

theorem applyWrites_idem :
    ∀ (w : List (List Char × List Char)) (fs : FileSys),
      applyWrites (applyWrites fs w) w = applyWrites fs w := by
  intro w
  induction w with
  | nil => intro fs; rfl
  | cons e w' ih =>
    intro fs
    obtain ⟨p, d⟩ := e
    simp only [applyWrites]
    rw [copy_to_file_of_some d
      (applyWrites_isSome w' (copy_to_file fs d p) (fsLookup_copy_self fs d p))]
    exact ih (copy_to_file fs d p)

theorem walk_leaf (site : Site) (f : Nat) (u : List Char) (opts : Opts)
    (dups : List (List Char)) (depth : Nat) (par : Option (List Char)) (fs : FileSys) :
    (walkFuel site f u opts dups depth false par fs).fetched = [] ∨
    (walkFuel site f u opts dups depth false par fs).fetched = [clean_url u] := by
  cases f with
  | zero => exact Or.inl rfl
  | succ f =>
    simp only [walkFuel]
    by_cases hp : proceed (clean_url u) opts dups depth = false
    · rw [if_pos hp]
      exact Or.inl rfl
    · rw [if_neg hp]
      cases hs : site (clean_url u) with
      | none => exact Or.inr rfl
      | some page =>
        dsimp only
        rw [if_neg (by simp)]
        exact Or.inr rfl

theorem proceed_iff (url : List Char) (opts : Opts) (dups : List (List Char)) (depth : Nat) :
    proceed url opts dups depth = true ↔
      ((opts.depth = 0 ∨ depth ≤ opts.depth) ∧ url ∉ dups ∧
        (∀ ps, opts.exclude = some ps → ∀ p ∈ ps, p url = false) ∧
        (∀ ps, opts.include_ = some ps → ∀ p ∈ ps, p url = true)) := by
  rcases hex : opts.exclude with _ | eps <;> rcases hinc : opts.include_ with _ | ips <;>
    simp only [proceed, hex, hinc] <;>
    split_ifs <;>
    simp_all <;>
    omega

/-! ## Claim theorems -/

/-- Claim C1 (code bug): the claim says walk marks every canonical URL in
the VisitedSet before fetching so that each URL is fetched at most once per
run; but webwalk.py never inserts anything into `dups`, so on the cyclic
two-page site A ↔ B the root A is fetched twice. -/
theorem c1_refetch_bug :
    (walkFuel siteC1 4 urlC1A defaultOpts [] 0 true none []).fetched
        = [urlC1A, urlC1B, urlC1A] ∧
    ((walkFuel siteC1 4 urlC1A defaultOpts [] 0 true none []).fetched).count urlC1A = 2 ∧
    (walkFuel siteC1 4 urlC1A defaultOpts [] 0 true none []).completed = true := by
  decide

/-- Claim C2 (code bug): the claim says walk terminates on every site graph
because the VisitedSet only grows; but the VisitedSet never grows, and on
the one-page cyclic site `siteC2` (whose page links to `.`) the walk runs
out of any amount of fuel — the recursion never terminates. -/
theorem c2_nontermination_bug :
    ∀ fuel, (walkFuel siteC2 fuel urlC2 defaultOpts [] 0 true none []).completed = false :=
  fun fuel => walkC2_loop fuel urlC2 0 none [] (by decide)

/-- Claim C3: canonicalization is idempotent, and the slash-laden example
collapses as stated. -/
theorem c3_canonicalize_idempotent :
    (∀ u : List Char, clean_url (clean_url u) = clean_url u) ∧
    clean_url urlSlashy = urlSlashyClean :=
  ⟨clean_url_idem, by decide⟩

/-- Claim C4 counterexample: `clean_url` does not leave the query string
unaltered — it deletes it entirely — and `..` resolution can consume the
host component. -/
theorem c4_counterexample :
    clean_url urlQ = urlQClean ∧ urlQClean ≠ urlQ ∧
    clean_url urlDD = urlDDClean := by
  decide

/-- Claim C4 (amended): `clean_url` drops the query string and preserves
the scheme and the `://` marker verbatim, normalizing everything after the
marker (host and path together) as one absolute POSIX path. -/
theorem c4_amended_canonicalize :
    (∀ s t : List Char, ':' ∉ s → '?' ∉ s →
      clean_url (s ++ ':' :: '/' :: '/' :: t)
        = (s ++ [':', '/']) ++ normpath ('/' :: takeBeforeQ t)) ∧
    clean_url urlSlashy = urlSlashyClean :=
  ⟨fun s t hsc hsq => clean_url_scheme t hsc hsq, by decide⟩

theorem c4_amended_canonicalize_witness :
    (':' ∉ schemeHttp ∧ '?' ∉ schemeHttp) ∧
    clean_url (schemeHttp ++ ':' :: '/' :: '/' :: hostPathQ)
      = (schemeHttp ++ [':', '/']) ++ normpath ('/' :: takeBeforeQ hostPathQ) :=
  ⟨⟨by decide, by decide⟩,
    c4_amended_canonicalize.1 schemeHttp hostPathQ (by decide) (by decide)⟩

/-- Claim C5: `proceed` holds exactly when the depth gate passes (maxDepth
is 0 or depth ≤ maxDepth), the URL is not a duplicate, no exclude pattern
matches, and every include pattern matches; and when it fails, `walk`
returns immediately without fetching, reporting, or writing. -/
theorem c5_should_fetch :
    (∀ (url : List Char) (opts : Opts) (dups : List (List Char)) (depth : Nat),
      proceed url opts dups depth = true ↔
        ((opts.depth = 0 ∨ depth ≤ opts.depth) ∧ url ∉ dups ∧
          (∀ ps, opts.exclude = some ps → ∀ p ∈ ps, p url = false) ∧
          (∀ ps, opts.include_ = some ps → ∀ p ∈ ps, p url = true))) ∧
    (∀ (site : Site) (f : Nat) (u : List Char) (opts : Opts) (dups : List (List Char))
      (depth : Nat) (rec : Bool) (par : Option (List Char)) (fs : FileSys),
      proceed (clean_url u) opts dups depth = false →
      walkFuel site (f + 1) u opts dups depth rec par fs = ⟨fs, [], [], true⟩) :=
  ⟨proceed_iff, fun site f u opts dups depth rec par fs h =>
    walk_no_fetch site f u opts dups depth rec par fs h⟩

theorem c5_should_fetch_witness :
    proceed (clean_url urlC1A) defaultOpts [urlC1A] 0 = false ∧
    walkFuel siteC1 1 urlC1A defaultOpts [urlC1A] 0 true none [] = ⟨[], [], [], true⟩ :=
  ⟨by decide,
    c5_should_fetch.2 siteC1 0 urlC1A defaultOpts [urlC1A] 0 true none [] (by decide)⟩

/-- Claim C6: a walk entered with the recursion flag false fetches at most
its own URL (its links are never extracted); and on the concrete site the
external link is fetched and reported but its child is never visited, the
flag being exactly the string-prefix test. -/
theorem c6_recursion_scope :
    (∀ (site : Site) (f : Nat) (u : List Char) (opts : Opts) (dups : List (List Char))
      (depth : Nat) (par : Option (List Char)) (fs : FileSys),
      (walkFuel site f u opts dups depth false par fs).fetched = [] ∨
      (walkFuel site f u opts dups depth false par fs).fetched = [clean_url u]) ∧
    (walkFuel siteC6 6 urlC6A defaultOpts [] 0 true none []).fetched = [urlC6A, urlC6E] ∧
    (walkFuel siteC6 6 urlC6A defaultOpts [] 0 true none []).reported = [urlC6A, urlC6E] ∧
    urlC6F ∉ (walkFuel siteC6 6 urlC6A defaultOpts [] 0 true none []).fetched ∧
    urlC6A.isPrefixOf urlC6E = false ∧ urlC6E.isPrefixOf urlC6F = true :=
  ⟨walk_leaf, by decide, by decide, by decide, by decide, by decide⟩

/-- Claim C7 counterexample: a site-absolute reference is canonicalized
before being joined to the base URL, so joining the raw reference (as the
claim states) predicts the wrong result for `/a//b`. -/
theorem c7_counterexample :
    (analyze urlC7P [(baseS, [(hrefS, some baseC7)]), (aS, [(hrefS, some refC7)])]).m_list
        = [resC7] ∧
    path_join (clean_url baseC7) refC7 = joinRawC7 ∧
    resC7 ≠ joinRawC7 := by
  decide

/-- Claim C7 (amended): a reference whose canonical form starts with `/`
(and is not exactly `/`) resolves by joining the base URL — or, without a
base tag, the scheme+host prefix of the page URL — with the canonicalized
reference; the two concrete examples of the claim hold. -/
theorem c7_amended_resolution :
    (∀ m_url b ref : List Char,
      (clean_url (takeBeforeQ ref)).head? = some '/' →
      clean_url (takeBeforeQ ref) ≠ ['/'] →
      create_url m_url (some b) ref = some (path_join b (clean_url (takeBeforeQ ref)))) ∧
    (∀ (m_url ref : List Char) (q : Nat),
      (clean_url (takeBeforeQ ref)).head? = some '/' →
      clean_url (takeBeforeQ ref) ≠ ['/'] →
      (match findSS m_url with
       | some p => findCharFrom m_url '/' (p + 3)
       | none => findCharFrom m_url '/' 0) = some q →
      create_url m_url none ref
        = some (path_join (m_url.take q) (clean_url (takeBeforeQ ref)))) ∧
    (analyze urlC7Page [(baseS, [(hrefS, some baseC7)]), (aS, [(hrefS, some refZ)])]).m_list
        = [resBase] ∧
    (analyze urlC7Page [(aS, [(hrefS, some refZ)])]).m_list = [resNoBase] :=
  ⟨fun m_url b ref h1 h2 => create_url_base m_url b ref h1 h2,
   fun m_url ref q h1 h2 h3 => create_url_no_base m_url ref q h1 h2 h3,
   by decide, by decide⟩

theorem c7_amended_resolution_witness :
    ((clean_url (takeBeforeQ refZ)).head? = some '/' ∧ clean_url (takeBeforeQ refZ) ≠ ['/']) ∧
    create_url urlC7Page (some (clean_url baseC7)) refZ
      = some (path_join (clean_url baseC7) (clean_url (takeBeforeQ refZ))) :=
  ⟨⟨by decide, by decide⟩,
    c7_amended_resolution.1 urlC7Page (clean_url baseC7) refZ (by decide) (by decide)⟩

/-- Claim C8: the extracted link list has no duplicates, never contains the
page's own canonical URL, equals the first-occurrence deduplication of the
document-order resolution stream, skips a/link hrefs beginning with `#` or
`?`, and discards references canonicalizing to exactly `/`. -/
theorem c8_extractor :
    (∀ (url : List Char) (evts : List TagEvent), (analyze url evts).m_list.Nodup) ∧
    (∀ (url : List Char) (evts : List TagEvent),
      clean_url url ∉ (analyze url evts).m_list) ∧
    (∀ (url : List Char) (evts : List TagEvent),
      (analyze url evts).m_list
        = dedupKeep (clean_url url) [] (candidates (clean_url url) none evts)) ∧
    (∀ (st : PState) (tag : List Char) (attrs : List (List Char × Option (List Char)))
      (c : Char) (r : List Char),
      (tag.map Char.toLower = aS ∨ tag.map Char.toLower = linkS) →
      get_attr attrs hrefS = some (c :: r) → (c = '#' ∨ c = '?') →
      handle_starttag st tag attrs = st) ∧
    (∀ (m_url : List Char) (m_base : Option (List Char)) (ref : List Char),
      clean_url (takeBeforeQ ref) = ['/'] → create_url m_url m_base ref = none) :=
  ⟨analyze_nodup, analyze_not_self, analyze_m_list_eq,
   fun st tag attrs c r h1 h2 h3 => handle_skip_fragment st tag attrs c r h1 h2 h3,
   fun m_url m_base ref h => create_url_root m_url m_base ref h⟩

theorem c8_extractor_witness :
    ((aS.map Char.toLower = aS ∨ aS.map Char.toLower = linkS) ∧
      clean_url (takeBeforeQ slashDD) = ['/']) ∧
    handle_starttag pstate0 aS [(hrefS, some ('#' :: xS))] = pstate0 ∧
    create_url urlC7Page none slashDD = none :=
  ⟨⟨Or.inl (by decide), by decide⟩,
   c8_extractor.2.2.2.1 pstate0 aS [(hrefS, some ('#' :: xS))] '#' xS
     (Or.inl (by decide)) (by decide) (Or.inl rfl),
   c8_extractor.2.2.2.2 urlC7Page none slashDD (by decide)⟩

/-- Claim C9: `copy_to_file` never overwrites an existing file, and a whole
walk is idempotent on the file system — running it again on top of its own
output changes nothing. -/
theorem c9_no_overwrite :
    (∀ (fs : FileSys) (data outfile : List Char),
      (fsLookup fs outfile).isSome → copy_to_file fs data outfile = fs) ∧
    (∀ (site : Site) (f : Nat) (u : List Char) (opts : Opts) (dups : List (List Char))
      (depth : Nat) (rec : Bool) (par : Option (List Char)) (fs : FileSys),
      (walkFuel site f u opts dups depth rec par
          ((walkFuel site f u opts dups depth rec par fs).fs)).fs
        = (walkFuel site f u opts dups depth rec par fs).fs) :=
  ⟨fun fs data outfile h => copy_to_file_of_some data h,
   fun site f u opts dups depth rec par fs => by
     simp only [walkFuel_fs_eq]
     exact applyWrites_idem _ _⟩

theorem c9_no_overwrite_witness :
    (fsLookup [(pathP, dataOld)] pathP).isSome = true ∧
    copy_to_file [(pathP, dataOld)] dataNew pathP = [(pathP, dataOld)] :=
  ⟨by decide, c9_no_overwrite.1 [(pathP, dataOld)] dataNew pathP (by decide)⟩

/-- Claim C10: a `script` tag's `src` is not subject to the `#`/`?` skip
that `a`/`link` hrefs get: a fragment-only src such as `#x` is joined onto
the page URL and appended, while the same href on an `a` tag is skipped. -/
theorem c10_script_fragment_src :
    (analyze urlC10 [(scriptS, [(srcS, some ('#' :: xS))])]).m_list = [resC10] ∧
    (analyze urlC10 [(aS, [(hrefS, some ('#' :: xS))])]).m_list = [] := by
  decide
